import Mathlib

/-!
Verification of the session/routing layer of the mpc-web repository.

The central artifact under `src/sdk2` is the ad-hoc envelope codec and
router duplicated across the C test drivers.  The canonical copy is
`convert_round1_to_messages` in `test_corrected_keygen.c` (lines 22-78):
given the round outputs of all parties it extracts, for a target party,
the sub-payload addressed to that party from every other party's output
(searching for the byte sequence `"<id>":` with `strstr`, jumping to the
next `{` with `strchr`, and finding the end of the value span with an
explicit brace counter), and joins the extracted spans into a
`[span,span,...]` array string.

Byte strings are modelled as `List Char`.  Delimiter characters are named
constants (built with `Char.ofNat`) so that definitions stay close to the
C character comparisons.
-/

namespace MpcWeb

/-- The byte `{` (0x7b). -/
def lbrace : Char := Char.ofNat 123

/-- The byte `}` (0x7d). -/
def rbrace : Char := Char.ofNat 125

/-- The byte `"` (0x22). -/
def quoteC : Char := Char.ofNat 34

/-- The byte `:` (0x3a). -/
def colonC : Char := Char.ofNat 58

/-- The byte `,` (0x2c). -/
def commaC : Char := Char.ofNat 44

/-- The byte `[` (0x5b). -/
def lbrackC : Char := Char.ofNat 91

/-- The byte `]` (0x5d). -/
def rbrackC : Char := Char.ofNat 93

/-- Decimal digit rendering of a natural number, fuel-based exactly like the
recursion underlying `sprintf("%d", n)` for nonnegative values: most
significant digit first. -/
def natDigitsAux : Nat → Nat → List Char
  | 0, _ => []
  | fuel + 1, n =>
    if n < 10 then [Nat.digitChar n]
    else natDigitsAux fuel (n / 10) ++ [Nat.digitChar (n % 10)]

/-- Decimal digits of `n`, most significant first. -/
def natDigits (n : Nat) : List Char := natDigitsAux (n + 1) n

/-- The key text `sprintf(target_key, "\"%d\":", target_party)` builds in
`test_corrected_keygen.c` line 43: a quote, the decimal id, a quote, a colon. -/
def partyKey (t : Nat) : List Char := quoteC :: natDigits t ++ [quoteC, colonC]

/-- Boolean prefix test on byte strings (the inner loop of `strstr`). -/
def isPref : List Char → List Char → Bool
  | [], _ => true
  | _ :: _, [] => false
  | a :: as, b :: bs => a == b && isPref as bs

/-- Index of the first occurrence of `needle` in the haystack, as computed by
`strstr` (`test_corrected_keygen.c` line 45): the scan tries every position
from the left and stops at the first match. -/
def strstrIdx : List Char → List Char → Option Nat
  | [], needle => if isPref needle [] then some 0 else none
  | h :: t, needle =>
    if isPref needle (h :: t) then some 0
    else (strstrIdx t needle).map (· + 1)

/-- Index of the first occurrence of a character, as computed by `strchr`
(`test_corrected_keygen.c` line 49). -/
def strchrIdx : List Char → Char → Option Nat
  | [], _ => none
  | c :: t, ch => if c = ch then some 0 else (strchrIdx t ch).map (· + 1)

/-- The brace-matching do-while loop of `test_corrected_keygen.c` lines 54-61:
starting with counter `count`, process one character (increment on `{`,
decrement on `}`), stop when the counter reaches zero (success: returns the
number of characters consumed) or the buffer ends with a nonzero counter
(failure: the C code hits `brace_count != 0` and skips the entry). -/
def braceScan (count : Int) : List Char → Option Nat
  | [] => none
  | c :: rest =>
    let count2 := if c = lbrace then count + 1 else if c = rbrace then count - 1 else count
    if count2 = 0 then some 1
    else if 0 < count2 then
      match braceScan count2 rest with
      | some n => some (n + 1)
      | none => none
    else none

/-- Extraction of the sub-payload addressed to party `t` from one round
output, translated from `test_corrected_keygen.c` lines 41-61: `strstr` for
the key text `"t":`, `strchr` for the next `{`, then the brace counter for
the end of the span.  Any failure makes the caller skip the entry
(`continue`), modelled as `none`. -/
def extractMsg (s : List Char) (t : Nat) : Option (List Char) :=
  match strstrIdx s (partyKey t) with
  | none => none
  | some i =>
    match strchrIdx (s.drop i) lbrace with
    | none => none
    | some j =>
      match braceScan 0 ((s.drop i).drop j) with
      | none => none
      | some n => some (((s.drop i).drop j).take n)

/-- The per-sender loop of `convert_round1_to_messages` (lines 35-71),
reduced to the list of extracted spans: `fromParty` plays `i + 1`, the
target's own slot is skipped, and failed extractions are skipped.  The
order is the loop order: ascending sender id. -/
def msgListAux (t : Nat) : Nat → List (List Char) → List (List Char)
  | _, [] => []
  | fromParty, out :: rest =>
    if fromParty = t then msgListAux t (fromParty + 1) rest
    else
      match extractMsg out t with
      | none => msgListAux t (fromParty + 1) rest
      | some m => m :: msgListAux t (fromParty + 1) rest

/-- Spans extracted for party `t` from the round outputs (party ids start at 1). -/
def msgList (outputs : List (List Char)) (t : Nat) : List (List Char) :=
  msgListAux t 1 outputs

/-- The string-building loop of `convert_round1_to_messages` (lines 30-73):
the accumulator starts as `"["`, a comma is appended before every span
except the first (`message_count > 0`), and `"]"` is appended at the end. -/
def convertAux (t : Nat) : Nat → Nat → List Char → List (List Char) → List Char
  | _, _, acc, [] => acc ++ [rbrackC]
  | fromParty, messageCount, acc, out :: rest =>
    if fromParty = t then convertAux t (fromParty + 1) messageCount acc rest
    else
      match extractMsg out t with
      | none => convertAux t (fromParty + 1) messageCount acc rest
      | some m =>
        convertAux t (fromParty + 1) (messageCount + 1)
          (acc ++ (if 0 < messageCount then [commaC] else []) ++ m) rest

/-- `convert_round1_to_messages(round1_outputs, round1_lens, count, target_party)`
from `test_corrected_keygen.c` lines 22-78, as a function from the list of
round outputs (index `i` holding party `i + 1`'s output) and the target
party to the aggregated message-array byte string. -/
def convert_round1_to_messages (outputs : List (List Char)) (t : Nat) : List Char :=
  convertAux t 1 0 [lbrackC] outputs

/-- Comma-separated join of spans, describing the shape the accumulator loop
produces: no separator around the brackets, one comma between spans. -/
def sepJoin : List (List Char) → List Char
  | [] => []
  | [m] => m
  | m :: rest => m ++ commaC :: sepJoin rest

/-- Join in which every span is preceded by a comma (the accumulator shape
once `message_count` is positive). -/
def commaAll : List (List Char) → List Char
  | [] => []
  | m :: rest => (commaC :: m) ++ commaAll rest

/-- One encoded envelope entry `"id":payload`. -/
def entryStr (e : Nat × List Char) : List Char := partyKey e.1 ++ e.2

/-- Modelled from the spec: the Envelope Codec `encode` operation is not in
the C sources (the envelopes consumed by `convert_round1_to_messages` are
produced by the external Go engine).  Spec 4.1 and 6: "for each PartyId
present, writes an associative entry `{partyId: payload}`", "a nested-brace
associative structure, top-level a mapping from stringified PartyId to an
object payload" — i.e. `{"1":p1,"2":p2,...}` in the order of the envelope. -/
def encode (env : List (Nat × List Char)) : List Char :=
  lbrace :: sepJoin (env.map entryStr) ++ [rbrace]

/-- The bytes of `encode env` that precede the entry after the entries `pre`:
the opening brace, the encoded entries of `pre`, and the separating comma. -/
def encBefore (pre : List (Nat × List Char)) : List Char :=
  match pre with
  | [] => [lbrace]
  | _ :: _ => lbrace :: sepJoin (pre.map entryStr) ++ [commaC]

/-- The bytes of `encode env` that follow an entry succeeded by the entries
`post`. -/
def encAfter (post : List (Nat × List Char)) : List Char :=
  match post with
  | [] => [rbrace]
  | _ :: _ => commaC :: sepJoin (post.map entryStr) ++ [rbrace]

/-- Running brace depth of a byte string starting from `k`: `+1` on `{`,
`-1` on `}`. -/
def braceDepthFrom (k : Int) (cs : List Char) : Int :=
  cs.foldl (fun d c => if c = lbrace then d + 1 else if c = rbrace then d - 1 else d) k

/-- Brace depth of a byte string starting from zero. -/
def braceDepth (cs : List Char) : Int := braceDepthFrom 0 cs

/-- Senders paired with their outputs in ascending PartyId order
(party `f + i` holds the list's `i`-th output). -/
def withParties (f : Nat) (outputs : List (List Char)) : List (Nat × List Char) :=
  List.enumFrom f outputs

/-- The extracted spans listed in ascending sender PartyId order, skipping
the target's own slot: the order-of-insertion description of the batch. -/
def extractedAscending (outputs : List (List Char)) (t : Nat) : List (List Char) :=
  (withParties 1 outputs).filterMap (fun p => if p.1 = t then none else extractMsg p.2 t)

/-- Outcome of a JNI binding call as seen by the managed runtime: a normal
value, a null (or zero handle) return, or a thrown `RuntimeException`
carrying the engine error code. -/
inductive JniOutcome where
  | ok : JniOutcome
  | nullReturn : JniOutcome
  | thrownRuntimeException : Int → JniOutcome
deriving DecidableEq

/-- Error path of `Java_com_example_mpctest_MPCNative_keygenInit`
(`mpc_jni.c` lines 8-17): on nonzero engine result it returns the zero
handle, throwing nothing. -/
def keygenInitJ (r : Int) : JniOutcome := if r = 0 then .ok else .nullReturn

/-- Error path of `keygenRound1` (`mpc_jni.c` lines 19-36): returns NULL. -/
def keygenRound1J (r : Int) : JniOutcome := if r = 0 then .ok else .nullReturn

/-- Error path of `keygenRound2` (`mpc_jni.c` lines 38-61): returns NULL. -/
def keygenRound2J (r : Int) : JniOutcome := if r = 0 then .ok else .nullReturn

/-- Error path of `keygenRound3` (`mpc_jni.c` lines 63-86): returns NULL. -/
def keygenRound3J (r : Int) : JniOutcome := if r = 0 then .ok else .nullReturn

/-- Error path of `refreshInit` (`mpc_jni.c` lines 95-116): returns 0. -/
def refreshInitJ (r : Int) : JniOutcome := if r = 0 then .ok else .nullReturn

/-- Error path of `refreshRound1` (`mpc_jni.c` lines 118-134): returns NULL. -/
def refreshRound1J (r : Int) : JniOutcome := if r = 0 then .ok else .nullReturn

/-- Error path of `refreshRound2` (`mpc_jni.c` lines 136-159): returns NULL. -/
def refreshRound2J (r : Int) : JniOutcome := if r = 0 then .ok else .nullReturn

/-- Error path of `refreshRound3` (`mpc_jni.c` lines 161-184): returns NULL. -/
def refreshRound3J (r : Int) : JniOutcome := if r = 0 then .ok else .nullReturn

/-- Error path of `ed25519SignInit` (`mpc_jni.c` lines 193-218): returns 0. -/
def ed25519SignInitJ (r : Int) : JniOutcome := if r = 0 then .ok else .nullReturn

/-- Error path of `ed25519SignRound1` (`mpc_jni.c` lines 220-236). -/
def ed25519SignRound1J (r : Int) : JniOutcome := if r = 0 then .ok else .nullReturn

/-- Error path of `ed25519SignRound2` (`mpc_jni.c` lines 238-261). -/
def ed25519SignRound2J (r : Int) : JniOutcome := if r = 0 then .ok else .nullReturn

/-- Error path of `ed25519SignRound3` (`mpc_jni.c` lines 263-294). -/
def ed25519SignRound3J (r : Int) : JniOutcome := if r = 0 then .ok else .nullReturn

/-- Error path of `ecdsaKeygenGenerateP2Params` (`mpc_jni.c` lines 303-321):
on nonzero result it builds an error message and calls `ThrowNew` with
`java/lang/RuntimeException`. -/
def ecdsaKeygenGenerateP2ParamsJ (r : Int) : JniOutcome :=
  if r = 0 then .ok else .thrownRuntimeException r

/-- Error path of `ecdsaKeygenP1` (`mpc_jni.c` lines 323-366): throws. -/
def ecdsaKeygenP1J (r : Int) : JniOutcome :=
  if r = 0 then .ok else .thrownRuntimeException r

/-- Error path of `ecdsaKeygenP2` (`mpc_jni.c` lines 368-403): throws. -/
def ecdsaKeygenP2J (r : Int) : JniOutcome :=
  if r = 0 then .ok else .thrownRuntimeException r

/-- Error path of `ecdsaSignInitP1Complex` (`mpc_jni.c` lines 407-432): throws. -/
def ecdsaSignInitP1ComplexJ (r : Int) : JniOutcome :=
  if r = 0 then .ok else .thrownRuntimeException r

/-- Error path of `ecdsaSignInitP2Complex` (`mpc_jni.c` lines 434-459): throws. -/
def ecdsaSignInitP2ComplexJ (r : Int) : JniOutcome :=
  if r = 0 then .ok else .thrownRuntimeException r

/-- Error path of `ecdsaSignStep1` (`mpc_jni.c` lines 461-479): throws. -/
def ecdsaSignStep1J (r : Int) : JniOutcome :=
  if r = 0 then .ok else .thrownRuntimeException r

/-- Error path of `ecdsaSignP2Step1` (`mpc_jni.c` lines 481-519): throws. -/
def ecdsaSignP2Step1J (r : Int) : JniOutcome :=
  if r = 0 then .ok else .thrownRuntimeException r

/-- Error path of `ecdsaSignP1Step2` (`mpc_jni.c` lines 521-565): throws. -/
def ecdsaSignP1Step2J (r : Int) : JniOutcome :=
  if r = 0 then .ok else .thrownRuntimeException r

/-- Error path of `ecdsaSignP2Step2` (`mpc_jni.c` lines 567-611): throws. -/
def ecdsaSignP2Step2J (r : Int) : JniOutcome :=
  if r = 0 then .ok else .thrownRuntimeException r

/-- Error path of `ecdsaSignP1Step3` (`mpc_jni.c` lines 613-655): throws. -/
def ecdsaSignP1Step3J (r : Int) : JniOutcome :=
  if r = 0 then .ok else .thrownRuntimeException r

/-- All fallible JNI bindings of `mpc_jni.c` that receive an engine result
code, each paired with its error-path model (the `destroy` bindings return
`void` and the string helpers take no engine code, so they are not listed). -/
def jniBindings : List (String × (Int → JniOutcome)) :=
  [("keygenInit", keygenInitJ),
   ("keygenRound1", keygenRound1J),
   ("keygenRound2", keygenRound2J),
   ("keygenRound3", keygenRound3J),
   ("refreshInit", refreshInitJ),
   ("refreshRound1", refreshRound1J),
   ("refreshRound2", refreshRound2J),
   ("refreshRound3", refreshRound3J),
   ("ed25519SignInit", ed25519SignInitJ),
   ("ed25519SignRound1", ed25519SignRound1J),
   ("ed25519SignRound2", ed25519SignRound2J),
   ("ed25519SignRound3", ed25519SignRound3J),
   ("ecdsaKeygenGenerateP2Params", ecdsaKeygenGenerateP2ParamsJ),
   ("ecdsaKeygenP1", ecdsaKeygenP1J),
   ("ecdsaKeygenP2", ecdsaKeygenP2J),
   ("ecdsaSignInitP1Complex", ecdsaSignInitP1ComplexJ),
   ("ecdsaSignInitP2Complex", ecdsaSignInitP2ComplexJ),
   ("ecdsaSignStep1", ecdsaSignStep1J),
   ("ecdsaSignP2Step1", ecdsaSignP2Step1J),
   ("ecdsaSignP1Step2", ecdsaSignP1Step2J),
   ("ecdsaSignP2Step2", ecdsaSignP2Step2J),
   ("ecdsaSignP1Step3", ecdsaSignP1Step3J)]

/-- The bindings whose error path throws a `RuntimeException` in `mpc_jni.c`:
exactly the ECDSA keygen and ECDSA signing family. -/
def throwingNames : List String :=
  ["ecdsaKeygenGenerateP2Params", "ecdsaKeygenP1", "ecdsaKeygenP2",
   "ecdsaSignInitP1Complex", "ecdsaSignInitP2Complex", "ecdsaSignStep1",
   "ecdsaSignP2Step1", "ecdsaSignP1Step2", "ecdsaSignP2Step2",
   "ecdsaSignP1Step3"]

/-- Driving role of a two-party signing step. -/
inductive Role where
  | P1 : Role
  | P2 : Role
deriving DecidableEq

/-- One engine step of the two-party ECDSA signing run: who drives it, the
payloads passed in, the payloads produced. -/
structure StepRec (α : Type) where
  role : Role
  inputs : List α
  outputs : List α

/-- The five-step two-party ECDSA signing sequence of
`test_complete_ecdsa.c` lines 313-393, instrumented as a trace over an
abstract engine: `f1` is `go_ecdsa_sign_step1` (P1), `f2` is
`go_ecdsa_sign_p2_step1` (P2, consumes P1's commit), `f3` is
`go_ecdsa_sign_p1_step2` (P1, consumes P2's proof and R2 buffers), `f4` is
`go_ecdsa_sign_p2_step2` (P2, consumes P1's cmtD and proof buffers), `f5`
is `go_ecdsa_sign_p1_step3` (P1, consumes P2's EK and affine-proof buffers
and returns the signature pair).  Each input below is the value produced by
the peer's immediately preceding step, passed directly. -/
def ecdsaSignTrace {α : Type} (f1 : Unit → α) (f2 : α → α × α)
    (f3 : α → α → α × α) (f4 : α → α → α × α) (f5 : α → α → α × α) :
    List (StepRec α) :=
  let c := f1 ()
  let s2 := f2 c
  let s3 := f3 s2.1 s2.2
  let s4 := f4 s3.2 s3.1
  let s5 := f5 s4.1 s4.2
  [⟨Role.P1, [], [c]⟩,
   ⟨Role.P2, [c], [s2.1, s2.2]⟩,
   ⟨Role.P1, [s2.1, s2.2], [s3.1, s3.2]⟩,
   ⟨Role.P2, [s3.2, s3.1], [s4.1, s4.2]⟩,
   ⟨Role.P1, [s4.1, s4.2], [s5.1, s5.2]⟩]

/-- Decimal digit byte: code between 48 (`0`) and 57 (`9`). -/
def isDig (c : Char) : Prop := 48 ≤ c.toNat ∧ c.toNat ≤ 57

instance (c : Char) : Decidable (isDig c) := by unfold isDig; infer_instance

/-- Value of a most-significant-first decimal digit string. -/
def digitsVal (cs : List Char) : Nat :=
  cs.foldl (fun a c => 10 * a + (c.toNat - 48)) 0

/-- Holds when, in a step trace, every step after the first consumes exactly
the payloads produced by the immediately preceding step (as a multiset:
the C driver passes the two buffers of a step in either parameter order). -/
def chained {α : Type} : List (StepRec α) → Prop
  | [] => True
  | [_] => True
  | a :: b :: rest => b.inputs.Perm a.outputs ∧ chained (b :: rest)

/-- Concrete test payload `\x7b\x7d`. -/
def tvA : List Char := [lbrace, rbrace]

/-- Concrete test payload `\x7ba\x7d`. -/
def tvB : List Char := [lbrace, 'a', rbrace]

/-- Concrete payload whose literal text contains the key text `"3":`:
`\x7b"3":\x7b\x7d\x7d`. -/
def tvFake : List Char :=
  [lbrace, quoteC, '3', quoteC, colonC, lbrace, rbrace, rbrace]

/-- Concrete payload `\x7b"a":1\x7d`. -/
def tvReal : List Char :=
  [lbrace, quoteC, 'a', quoteC, colonC, '1', rbrace]

/-- Concrete buffer `\x7b"1":\x7b\x7b\x7d` whose value span never returns to
depth zero. -/
def tvUnbal : List Char :=
  [lbrace, quoteC, '1', quoteC, colonC, lbrace, lbrace, rbrace]

/-- Three round outputs: parties 1 and 3 address party 2, party 2 addresses
party 1 (its own slot is skipped by the router anyway). -/
def tvOuts : List (List Char) :=
  [encode [(2, tvA)], encode [(1, tvA)], encode [(2, tvB)]]

/-- Three round outputs in which party 1 addressed only party 3, so its
entry for party 2 is missing. -/
def tvOutsMissing : List (List Char) :=
  [encode [(3, tvA)], encode [(1, tvA)], encode [(2, tvB)]]

theorem isPref_iff (k : List Char) : ∀ s, isPref k s = true ↔ ∃ r, s = k ++ r := by
  induction k with
  | nil => intro s; simp [isPref]
  | cons a as ih =>
    intro s
    cases s with
    | nil => simp [isPref]
    | cons b bs =>
      simp only [isPref, Bool.and_eq_true, beq_iff_eq, ih, List.cons_append,
        List.cons.injEq]
      constructor
      · rintro ⟨rfl, r, rfl⟩; exact ⟨r, rfl, rfl⟩
      · rintro ⟨r, rfl, rfl⟩; exact ⟨rfl, r, rfl⟩

theorem isPref_append_self (k r : List Char) : isPref k (k ++ r) = true :=
  (isPref_iff k _).2 ⟨r, rfl⟩

theorem isPref_getElem {k s : List Char} (h : isPref k s = true) {i : Nat}
    (hi : i < k.length) : s[i]? = k[i]? := by
  obtain ⟨r, rfl⟩ := (isPref_iff k s).1 h
  exact List.getElem?_append_left hi

theorem isPref_drop_getElem {k s : List Char} {q : Nat}
    (h : isPref k (s.drop q) = true) {i : Nat} (hi : i < k.length) :
    s[q + i]? = k[i]? := by
  have h1 := isPref_getElem h hi
  rwa [List.getElem?_drop] at h1

theorem not_isPref_of_window {k s : List Char} {q i : Nat} {c : Char}
    (hc : s[q + i]? = some c) (hi : i < k.length) (hne : k[i]? ≠ some c) :
    isPref k (s.drop q) = false := by
  cases hp : isPref k (s.drop q) with
  | false => rfl
  | true => exact absurd ((isPref_drop_getElem hp hi).symm.trans hc) hne

theorem strstrIdx_none_iff {k : List Char} :
    ∀ {s}, strstrIdx s k = none ↔ ∀ q, isPref k (s.drop q) = false := by
  intro s
  induction s with
  | nil =>
    cases hb : isPref k [] with
    | true =>
      simp only [strstrIdx, hb, if_true]
      constructor
      · intro h; cases h
      · intro h; exact absurd (h 0) (by simp [List.drop_nil, hb])
    | false =>
      simp only [strstrIdx, hb]
      constructor
      · intro _ q; simpa [List.drop_nil] using hb
      · intro _; rfl
  | cons a t ih =>
    cases hb : isPref k (a :: t) with
    | true =>
      simp only [strstrIdx, hb, if_true]
      constructor
      · intro h; cases h
      · intro h; exact absurd (h 0) (by simp [hb])
    | false =>
      simp only [strstrIdx, hb, Bool.false_eq_true, if_false, Option.map_eq_none']
      rw [ih]
      constructor
      · intro h q
        cases q with
        | zero => simpa using hb
        | succ n => simpa [List.drop_succ_cons] using h n
      · intro h q
        simpa [List.drop_succ_cons] using h (q + 1)

theorem strstrIdx_first {k : List Char} :
    ∀ {s p}, isPref k (s.drop p) = true →
      (∀ q < p, isPref k (s.drop q) = false) → strstrIdx s k = some p := by
  intro s
  induction s with
  | nil =>
    intro p hp hmin
    cases p with
    | zero =>
      simp only [List.drop_nil] at hp
      simp [strstrIdx, hp]
    | succ n =>
      exfalso
      have h0 := hmin 0 (Nat.succ_pos n)
      simp only [List.drop_nil] at hp h0
      rw [hp] at h0; cases h0
  | cons a t ih =>
    intro p hp hmin
    cases p with
    | zero =>
      simp only [List.drop_zero] at hp
      simp [strstrIdx, hp]
    | succ n =>
      have h0 := hmin 0 (Nat.succ_pos n)
      simp only [List.drop_zero] at h0
      simp only [strstrIdx, h0, Bool.false_eq_true, if_false]
      have hrec : strstrIdx t k = some n := by
        apply ih
        · simpa [List.drop_succ_cons] using hp
        · intro q hq
          have := hmin (q + 1) (by omega)
          simpa [List.drop_succ_cons] using this
      rw [hrec]; rfl

theorem strchrIdx_cons_self (l : List Char) (ch : Char) :
    strchrIdx (ch :: l) ch = some 0 := by simp [strchrIdx]

theorem strchrIdx_append_of_not {l1 : List Char} {ch : Char}
    (h : ∀ c ∈ l1, c ≠ ch) (l2 : List Char) :
    strchrIdx (l1 ++ l2) ch = (strchrIdx l2 ch).map (· + l1.length) := by
  induction l1 with
  | nil => simp
  | cons c rest ih =>
    have hc : c ≠ ch := h c (by simp)
    have hrest : ∀ x ∈ rest, x ≠ ch := fun x hx => h x (by simp [hx])
    have hstep : strchrIdx ((c :: rest) ++ l2) ch = (strchrIdx (rest ++ l2) ch).map (· + 1) := by
      simp [strchrIdx, hc]
    rw [hstep, ih hrest]
    cases strchrIdx l2 ch with
    | none => rfl
    | some n =>
      simp only [Option.map_some', Option.some.injEq, List.length_cons]
      omega

theorem strchrIdx_head {ch : Char} :
    ∀ {s : List Char} {j}, strchrIdx s ch = some j → (s.drop j).head? = some ch := by
  intro s
  induction s with
  | nil => intro j h; cases h
  | cons c t ih =>
    intro j h
    by_cases hc : c = ch
    · simp only [strchrIdx, hc, if_true] at h
      cases h; simp [hc]
    · simp only [strchrIdx, hc, if_false] at h
      cases hrec : strchrIdx t ch with
      | none => rw [hrec] at h; cases h
      | some m =>
        rw [hrec] at h; cases h
        simpa [List.drop_succ_cons] using ih hrec

theorem braceDepthFrom_cons (k : Int) (c : Char) (l : List Char) :
    braceDepthFrom k (c :: l) =
      braceDepthFrom (if c = lbrace then k + 1 else if c = rbrace then k - 1 else k) l := rfl

theorem braceScan_bounds {cs : List Char} :
    ∀ {k : Int} {n}, braceScan k cs = some n →
      1 ≤ n ∧ n ≤ cs.length ∧ braceDepthFrom k (cs.take n) = 0 := by
  induction cs with
  | nil => intro k n h; cases h
  | cons c rest ih =>
    intro k n h
    rw [show braceScan k (c :: rest) =
        (if (if c = lbrace then k + 1 else if c = rbrace then k - 1 else k) = 0 then some 1
         else if 0 < (if c = lbrace then k + 1 else if c = rbrace then k - 1 else k) then
           match braceScan (if c = lbrace then k + 1 else if c = rbrace then k - 1 else k) rest with
           | some n => some (n + 1)
           | none => none
         else none) from rfl] at h
    set k2 := if c = lbrace then k + 1 else if c = rbrace then k - 1 else k with hk2
    by_cases h0 : k2 = 0
    · rw [if_pos h0] at h
      cases h
      refine ⟨by omega, by simp, ?_⟩
      rw [List.take_succ_cons, List.take_zero, braceDepthFrom_cons, ← hk2]
      simpa [braceDepthFrom] using h0
    · rw [if_neg h0] at h
      by_cases hpos : 0 < k2
      · rw [if_pos hpos] at h
        cases hrec : braceScan k2 rest with
        | none => rw [hrec] at h; cases h
        | some m =>
          rw [hrec] at h
          cases h
          obtain ⟨h1, h2, h3⟩ := ih hrec
          refine ⟨by omega, ?_, ?_⟩
          · simp only [List.length_cons]; omega
          · rw [List.take_succ_cons, braceDepthFrom_cons, ← hk2]
            exact h3
      · rw [if_neg hpos] at h; cases h

theorem braceScan_append {ext : List Char} :
    ∀ {cs : List Char} {k : Int} {n}, braceScan k cs = some n →
      braceScan k (cs ++ ext) = some n := by
  intro cs
  induction cs with
  | nil => intro k n h; cases h
  | cons c rest ih =>
    intro k n h
    rw [show braceScan k (c :: rest) =
        (if (if c = lbrace then k + 1 else if c = rbrace then k - 1 else k) = 0 then some 1
         else if 0 < (if c = lbrace then k + 1 else if c = rbrace then k - 1 else k) then
           match braceScan (if c = lbrace then k + 1 else if c = rbrace then k - 1 else k) rest with
           | some n => some (n + 1)
           | none => none
         else none) from rfl] at h
    rw [List.cons_append,
      show braceScan k (c :: (rest ++ ext)) =
        (if (if c = lbrace then k + 1 else if c = rbrace then k - 1 else k) = 0 then some 1
         else if 0 < (if c = lbrace then k + 1 else if c = rbrace then k - 1 else k) then
           match braceScan (if c = lbrace then k + 1 else if c = rbrace then k - 1 else k) (rest ++ ext) with
           | some n => some (n + 1)
           | none => none
         else none) from rfl]
    set k2 := if c = lbrace then k + 1 else if c = rbrace then k - 1 else k with hk2
    by_cases h0 : k2 = 0
    · rw [if_pos h0] at h ⊢; exact h
    · rw [if_neg h0] at h ⊢
      by_cases hpos : 0 < k2
      · rw [if_pos hpos] at h ⊢
        cases hrec : braceScan k2 rest with
        | none => rw [hrec] at h; cases h
        | some m => rw [hrec] at h; rw [ih hrec]; exact h
      · rw [if_neg hpos] at h; cases h

theorem braceScan_last :
    ∀ {cs : List Char} {k : Int} {n}, 1 ≤ k → braceScan k cs = some n →
      (cs.take n).getLast? = some rbrace := by
  intro cs
  induction cs with
  | nil => intro k n _ h; cases h
  | cons c rest ih =>
    intro k n hk h
    rw [show braceScan k (c :: rest) =
        (if (if c = lbrace then k + 1 else if c = rbrace then k - 1 else k) = 0 then some 1
         else if 0 < (if c = lbrace then k + 1 else if c = rbrace then k - 1 else k) then
           match braceScan (if c = lbrace then k + 1 else if c = rbrace then k - 1 else k) rest with
           | some n => some (n + 1)
           | none => none
         else none) from rfl] at h
    set k2 := if c = lbrace then k + 1 else if c = rbrace then k - 1 else k with hk2
    by_cases h0 : k2 = 0
    · rw [if_pos h0] at h
      cases h
      have hc : c = rbrace := by
        by_contra hc
        by_cases hcl : c = lbrace
        · rw [hk2, if_pos hcl] at h0; omega
        · rw [hk2, if_neg hcl, if_neg hc] at h0; omega
      simp [hc]
    · rw [if_neg h0] at h
      by_cases hpos : 0 < k2
      · rw [if_pos hpos] at h
        cases hrec : braceScan k2 rest with
        | none => rw [hrec] at h; cases h
        | some m =>
          rw [hrec] at h
          cases h
          obtain ⟨h1, h2, _⟩ := braceScan_bounds hrec
          have htail := ih (by omega) hrec
          rw [List.take_succ_cons]
          have hne : rest.take m ≠ [] := by
            intro hnil
            rw [hnil] at htail; cases htail
          cases htake : rest.take m with
          | nil => exact absurd htake hne
          | cons x xs =>
            rw [htake] at htail
            rw [List.getLast?_cons_cons]
            exact htail
      · rw [if_neg hpos] at h; cases h

theorem braceScan_none_of_depth {cs : List Char}
    (h : ∀ n, 1 ≤ n → n ≤ cs.length → braceDepthFrom 0 (cs.take n) ≠ 0) :
    braceScan 0 cs = none := by
  cases hb : braceScan 0 cs with
  | none => rfl
  | some n =>
    obtain ⟨h1, h2, h3⟩ := braceScan_bounds hb
    exact absurd h3 (h n h1 h2)

theorem digitChar_isDig {m : Nat} (h : m < 10) : isDig (Nat.digitChar m) := by
  interval_cases m <;> decide

theorem natDigitsAux_isDig : ∀ f n c, c ∈ natDigitsAux f n → isDig c := by
  intro f
  induction f with
  | zero => intro n c h; cases h
  | succ f ih =>
    intro n c h
    by_cases hn : n < 10
    · simp only [natDigitsAux, hn, if_true, List.mem_singleton] at h
      subst h; exact digitChar_isDig hn
    · simp only [natDigitsAux, hn, if_false, List.mem_append, List.mem_singleton] at h
      rcases h with h | h
      · exact ih _ _ h
      · subst h; exact digitChar_isDig (Nat.mod_lt _ (by omega))

theorem natDigits_isDig {n : Nat} {c : Char} (h : c ∈ natDigits n) : isDig c :=
  natDigitsAux_isDig _ _ _ h

theorem natDigits_ne_nil (n : Nat) : natDigits n ≠ [] := by
  by_cases hn : n < 10 <;> simp [natDigits, natDigitsAux, hn]

theorem digitChar_toNat_sub {m : Nat} (h : m < 10) : (Nat.digitChar m).toNat - 48 = m := by
  interval_cases m <;> decide

theorem digitsVal_natDigitsAux : ∀ f n, n < 10 ^ f → digitsVal (natDigitsAux f n) = n := by
  intro f
  induction f with
  | zero => intro n h; interval_cases n; rfl
  | succ f ih =>
    intro n h
    by_cases hn : n < 10
    · simp only [natDigitsAux, hn, if_true]
      simp [digitsVal, digitChar_toNat_sub hn]
    · simp only [natDigitsAux, hn, if_false]
      have hdiv : n / 10 < 10 ^ f := by
        rw [Nat.div_lt_iff_lt_mul (by omega : 0 < 10)]
        calc n < 10 ^ (f + 1) := h
        _ = 10 ^ f * 10 := by rw [pow_succ]
      have hih := ih (n / 10) hdiv
      unfold digitsVal at hih ⊢
      rw [List.foldl_append, hih]
      simp only [List.foldl_cons, List.foldl_nil]
      rw [digitChar_toNat_sub (Nat.mod_lt _ (by omega))]
      omega

theorem digitsVal_natDigits (n : Nat) : digitsVal (natDigits n) = n := by
  apply digitsVal_natDigitsAux
  calc n < 10 ^ n := Nat.lt_pow_self (by omega) n
  _ ≤ 10 ^ (n + 1) := Nat.pow_le_pow_right (by omega) (by omega)

theorem natDigits_inj {a b : Nat} (h : natDigits a = natDigits b) : a = b := by
  have ha := digitsVal_natDigits a
  rw [h, digitsVal_natDigits] at ha
  omega

theorem partyKey_chars {t : Nat} {c : Char} (h : c ∈ partyKey t) :
    c = quoteC ∨ c = colonC ∨ isDig c := by
  rcases List.mem_cons.1 h with h | h
  · exact Or.inl h
  · rcases List.mem_append.1 h with h | h
    · exact Or.inr (Or.inr (natDigits_isDig h))
    · rcases List.mem_cons.1 h with h | h
      · exact Or.inl h
      · rcases List.mem_cons.1 h with h | h
        · exact Or.inr (Or.inl h)
        · cases h

theorem lbrace_not_mem_partyKey (t : Nat) : lbrace ∉ partyKey t := by
  intro h
  rcases partyKey_chars h with h | h | h
  · exact absurd h (by decide)
  · exact absurd h (by decide)
  · exact absurd h (by decide)

theorem rbrace_not_mem_partyKey (t : Nat) : rbrace ∉ partyKey t := by
  intro h
  rcases partyKey_chars h with h | h | h
  · exact absurd h (by decide)
  · exact absurd h (by decide)
  · exact absurd h (by decide)

theorem commaC_not_mem_partyKey (t : Nat) : commaC ∉ partyKey t := by
  intro h
  rcases partyKey_chars h with h | h | h
  · exact absurd h (by decide)
  · exact absurd h (by decide)
  · exact absurd h (by decide)

theorem partyKey_getElem_zero (t : Nat) : (partyKey t)[0]? = some quoteC := by
  simp [partyKey]

theorem partyKey_getElem_one (t : Nat) :
    ∃ c, (partyKey t)[1]? = some c ∧ isDig c := by
  cases hd : natDigits t with
  | nil => exact absurd hd (natDigits_ne_nil t)
  | cons d ds =>
    refine ⟨d, ?_, natDigits_isDig (c := d) (n := t) ?_⟩
    · simp [partyKey, hd]
    · rw [hd]; exact List.mem_cons_self d ds

theorem partyKey_length (t : Nat) : 3 ≤ (partyKey t).length := by
  have h := natDigits_ne_nil t
  cases hd : natDigits t with
  | nil => exact absurd hd h
  | cons d ds =>
    simp only [partyKey, hd, List.length_cons, List.length_append, List.length_nil]
    omega

theorem digits_quote_isPref :
    ∀ (da db : List Char), (∀ c ∈ da, isDig c) → (∀ c ∈ db, isDig c) →
      ∀ u v, isPref (da ++ quoteC :: u) (db ++ quoteC :: v) = true → da = db := by
  intro da
  induction da with
  | nil =>
    intro db hda hdb u v h
    cases db with
    | nil => rfl
    | cons b bs =>
      exfalso
      simp only [List.nil_append, List.cons_append, isPref, Bool.and_eq_true,
        beq_iff_eq] at h
      have hb : isDig b := hdb b (by simp)
      rw [← h.1] at hb
      exact absurd hb (by decide)
  | cons a as ih =>
    intro db hda hdb u v h
    cases db with
    | nil =>
      exfalso
      simp only [List.cons_append, List.nil_append, isPref, Bool.and_eq_true,
        beq_iff_eq] at h
      have ha : isDig a := hda a (by simp)
      rw [h.1] at ha
      exact absurd ha (by decide)
    | cons b bs =>
      simp only [List.cons_append, isPref, Bool.and_eq_true, beq_iff_eq] at h
      have htail := ih bs (fun c hc => hda c (by simp [hc]))
        (fun c hc => hdb c (by simp [hc])) u v h.2
      rw [h.1, htail]

theorem isPref_partyKey_partyKey {t a : Nat} {r : List Char}
    (h : isPref (partyKey t) (partyKey a ++ r) = true) : t = a := by
  have hshape : partyKey a ++ r = quoteC :: (natDigits a ++ quoteC :: (colonC :: r)) := by
    simp [partyKey]
  rw [hshape] at h
  have hshape2 : partyKey t = quoteC :: (natDigits t ++ quoteC :: [colonC]) := by
    simp [partyKey]
  rw [hshape2] at h
  simp only [isPref, Bool.and_eq_true, beq_iff_eq] at h
  have := digits_quote_isPref (natDigits t) (natDigits a)
    (fun c hc => natDigits_isDig hc) (fun c hc => natDigits_isDig hc)
    [colonC] (colonC :: r) h.2
  exact natDigits_inj this

theorem sepJoin_cons_cons (m x : List Char) (rest : List (List Char)) :
    sepJoin (m :: x :: rest) = m ++ commaC :: sepJoin (x :: rest) := by
  simp [sepJoin]

theorem sepJoin_append (l1 l2 : List (List Char)) (h1 : l1 ≠ []) (h2 : l2 ≠ []) :
    sepJoin (l1 ++ l2) = sepJoin l1 ++ commaC :: sepJoin l2 := by
  induction l1 with
  | nil => exact absurd rfl h1
  | cons m rest ih =>
    cases rest with
    | nil =>
      cases l2 with
      | nil => exact absurd rfl h2
      | cons x xs => simp [sepJoin_cons_cons, sepJoin]
    | cons r rs =>
      have hstep : (m :: r :: rs) ++ l2 = m :: ((r :: rs) ++ l2) := rfl
      rw [hstep, List.cons_append, sepJoin_cons_cons, ← List.cons_append,
        ih (by simp), sepJoin_cons_cons]
      simp

theorem encode_decomp (pre post : List (Nat × List Char)) (e : Nat × List Char) :
    encode (pre ++ e :: post) = encBefore pre ++ entryStr e ++ encAfter post := by
  cases pre with
  | nil =>
    cases post with
    | nil => simp [encode, encBefore, encAfter, sepJoin]
    | cons p ps =>
      simp only [encode, encBefore, encAfter, List.nil_append, List.map_cons,
        sepJoin_cons_cons]
      simp
  | cons q qs =>
    cases post with
    | nil =>
      simp only [encode, encBefore, encAfter, List.map_append, List.map_cons,
        List.map_nil]
      rw [sepJoin_append _ _ (by simp) (by simp)]
      simp [sepJoin]
    | cons p ps =>
      simp only [encode, encBefore, encAfter, List.map_append, List.map_cons]
      rw [sepJoin_append _ _ (by simp) (by simp), sepJoin_cons_cons]
      simp

theorem extract_encode_core (pre post : List (Nat × List Char)) (t : Nat)
    (payload : List Char)
    (hhead : payload.head? = some lbrace)
    (hscan : braceScan 0 payload = some payload.length)
    (hfirst : ∀ q < (encBefore pre).length,
      isPref (partyKey t) ((encode (pre ++ (t, payload) :: post)).drop q) = false) :
    extractMsg (encode (pre ++ (t, payload) :: post)) t = some payload := by
  set s := encode (pre ++ (t, payload) :: post) with hs
  have hdecomp : s = encBefore pre ++ (partyKey t ++ (payload ++ encAfter post)) := by
    rw [hs, encode_decomp]; simp [entryStr]
  have htail : s.drop (encBefore pre).length = partyKey t ++ (payload ++ encAfter post) := by
    rw [hdecomp, List.drop_left]
  have hpref : isPref (partyKey t) (s.drop (encBefore pre).length) = true := by
    rw [htail]; exact isPref_append_self _ _
  have hstr : strstrIdx s (partyKey t) = some (encBefore pre).length :=
    strstrIdx_first hpref hfirst
  obtain ⟨p2, hp2⟩ : ∃ p2, payload = lbrace :: p2 := by
    cases payload with
    | nil => cases hhead
    | cons a l =>
      simp only [List.head?_cons, Option.some.injEq] at hhead
      exact ⟨l, by rw [hhead]⟩
  have hchr : strchrIdx (s.drop (encBefore pre).length) lbrace =
      some (partyKey t).length := by
    rw [htail, strchrIdx_append_of_not
      (fun c hc hceq => lbrace_not_mem_partyKey t (by rw [← hceq]; exact hc)) _]
    rw [hp2, List.cons_append, strchrIdx_cons_self]
    simp
  have hsub : (s.drop (encBefore pre).length).drop (partyKey t).length =
      payload ++ encAfter post := by
    rw [htail, List.drop_left]
  have hbs : braceScan 0 (payload ++ encAfter post) = some payload.length :=
    braceScan_append hscan
  have hfin : extractMsg s t = some ((payload ++ encAfter post).take payload.length) := by
    unfold extractMsg
    rw [hstr]
    dsimp only
    rw [hchr]
    dsimp only
    rw [hsub, hbs]
  rw [hfin, List.take_left]

theorem braceScan_cons_lbrace (k : Int) (rest : List Char) :
    braceScan k (lbrace :: rest) =
      (if k + 1 = 0 then some 1
       else if 0 < k + 1 then
         match braceScan (k + 1) rest with
         | some n => some (n + 1)
         | none => none
       else none) := by
  simp [braceScan]

theorem braceScan_zero_lbrace (rest : List Char) :
    braceScan 0 (lbrace :: rest) =
      (match braceScan 1 rest with
       | some n => some (n + 1)
       | none => none) := by
  rw [braceScan_cons_lbrace]
  norm_num

theorem wf_getLast {payload : List Char} (hhead : payload.head? = some lbrace)
    (hscan : braceScan 0 payload = some payload.length) :
    payload.getLast? = some rbrace := by
  obtain ⟨p2, rfl⟩ : ∃ p2, payload = lbrace :: p2 := by
    cases payload with
    | nil => cases hhead
    | cons a l =>
      simp only [List.head?_cons, Option.some.injEq] at hhead
      exact ⟨l, by rw [hhead]⟩
  rw [braceScan_zero_lbrace] at hscan
  cases hb : braceScan 1 p2 with
  | none => rw [hb] at hscan; cases hscan
  | some n =>
    rw [hb] at hscan
    simp only [List.length_cons, Option.some.injEq] at hscan
    have hn : n = p2.length := by omega
    subst hn
    have hlast := braceScan_last (by omega) hb
    rw [List.take_length] at hlast
    cases p2 with
    | nil => cases hlast
    | cons x xs => rw [List.getLast?_cons_cons]; exact hlast

theorem isPref_partyKey_nil (t : Nat) : isPref (partyKey t) [] = false := by
  simp [partyKey, isPref]

theorem isPref_partyKey_cons_of_ne {t : Nat} {c : Char} {l : List Char}
    (hc : c ≠ quoteC) : isPref (partyKey t) (c :: l) = false := by
  cases hp : isPref (partyKey t) (c :: l) with
  | false => rfl
  | true =>
    exfalso
    have h0 := isPref_getElem hp (i := 0) (by have := partyKey_length t; omega)
    rw [partyKey_getElem_zero] at h0
    simp only [List.getElem?_cons_zero, Option.some.injEq] at h0
    exact hc h0

theorem isPref_append_of_le {k l1 l2 : List Char}
    (h : isPref k (l1 ++ l2) = true) (hlen : k.length ≤ l1.length) :
    isPref k l1 = true := by
  obtain ⟨r, hr⟩ := (isPref_iff _ _).1 h
  apply (isPref_iff _ _).2
  refine ⟨l1.drop k.length, ?_⟩
  have htake : l1.take k.length = k := by
    have h1 : (l1 ++ l2).take k.length = k := by
      rw [hr, List.take_append_eq_append_take]
      simp
    rw [List.take_append_eq_append_take] at h1
    rw [show k.length - l1.length = 0 from by omega] at h1
    simpa using h1
  conv_lhs => rw [← List.take_append_drop k.length l1, htake]

theorem mem_of_getElem_opt :
    ∀ {l : List Char} {i : Nat} {x : Char}, l[i]? = some x → x ∈ l := by
  intro l
  induction l with
  | nil => intro i x h; simp at h
  | cons a t ih =>
    intro i x h
    cases i with
    | zero =>
      simp only [List.getElem?_cons_zero, Option.some.injEq] at h
      simp [h]
    | succ n =>
      rw [List.getElem?_cons_succ] at h
      exact List.mem_cons_of_mem a (ih h)

theorem getElem_ne_of_not_mem {l : List Char} {x : Char} (h : x ∉ l) (i : Nat) :
    l[i]? ≠ some x := by
  intro hx
  exact h (mem_of_getElem_opt hx)

theorem getLast?_append_some {l1 l2 : List Char} {b : Char}
    (h : l2.getLast? = some b) : (l1 ++ l2).getLast? = some b := by
  induction l1 with
  | nil => simpa using h
  | cons a l ih =>
    cases hl : l ++ l2 with
    | nil =>
      exfalso
      rcases List.append_eq_nil.1 hl with ⟨_, h2⟩
      rw [h2] at h; cases h
    | cons x xs =>
      rw [List.cons_append, hl, List.getLast?_cons_cons, ← hl, ih]

theorem drop_append_len (l1 l2 : List Char) (n : Nat) :
    (l1 ++ l2).drop (l1.length + n) = l2.drop n := by
  induction l1 with
  | nil => simp
  | cons a l ih =>
    have hlen : (a :: l).length + n = (l.length + n) + 1 := by
      simp only [List.length_cons]; omega
    rw [List.cons_append, hlen, List.drop_succ_cons, ih]

theorem partyKey_shape (a : Nat) :
    partyKey a = quoteC :: (natDigits a ++ [quoteC, colonC]) := by
  simp [partyKey]

theorem partyKey_length_eq (a : Nat) :
    (partyKey a).length = (natDigits a).length + 3 := by
  rw [partyKey_shape]
  simp only [List.length_cons, List.length_append, List.length_nil]

theorem noOcc_entry {t a : Nat} {pl : List Char} (hne : a ≠ t)
    (hnoc : ∀ q, isPref (partyKey t) (pl.drop q) = false) :
    ∀ q, isPref (partyKey t) ((entryStr (a, pl)).drop q) = false := by
  intro q
  cases hp : isPref (partyKey t) ((entryStr (a, pl)).drop q) with
  | false => rfl
  | true =>
    exfalso
    simp only [entryStr] at hp
    have hK := partyKey_length_eq a
    have hKt := partyKey_length t
    rcases Nat.lt_or_ge q (partyKey a).length with hq | hq
    · by_cases q0 : q = 0
      · subst q0
        rw [List.drop_zero] at hp
        exact hne (isPref_partyKey_partyKey hp).symm
      · by_cases qmid : q ≤ (natDigits a).length
        · obtain ⟨q', rfl⟩ : ∃ q', q = q' + 1 := ⟨q - 1, by omega⟩
          have hgetq : (partyKey a ++ pl)[q' + 1]? = (natDigits a)[q']? := by
            rw [List.getElem?_append_left (by omega), partyKey_shape,
              List.getElem?_cons_succ, List.getElem?_append_left (by omega)]
          obtain ⟨c, hc⟩ : ∃ c, (natDigits a)[q']? = some c := by
            have hlt : q' < (natDigits a).length := by omega
            exact ⟨(natDigits a).get ⟨q', hlt⟩, by simp [List.getElem?_eq_getElem hlt]⟩
          have hdig : isDig c := natDigits_isDig (mem_of_getElem_opt hc)
          have hblock : isPref (partyKey t) ((partyKey a ++ pl).drop (q' + 1)) = false := by
            apply not_isPref_of_window (i := 0) (c := c)
            · simpa using hgetq.trans hc
            · omega
            · rw [partyKey_getElem_zero]
              intro h
              simp only [Option.some.injEq] at h
              rw [← h] at hdig
              exact absurd hdig (by decide)
          rw [hblock] at hp; cases hp
        · by_cases qq : q = (natDigits a).length + 1
          · have hcolon : (partyKey a ++ pl)[q + 1]? = some colonC := by
              subst qq
              rw [List.getElem?_append_left (by omega), partyKey_shape,
                show (natDigits a).length + 1 + 1 = ((natDigits a).length + 1) + 1 from rfl,
                List.getElem?_cons_succ,
                List.getElem?_append_right (by omega)]
              simp
            obtain ⟨d, hd, hdd⟩ := partyKey_getElem_one t
            have hblock : isPref (partyKey t) ((partyKey a ++ pl).drop q) = false := by
              apply not_isPref_of_window (i := 1) (c := colonC) hcolon (by omega)
              rw [hd]
              intro h
              simp only [Option.some.injEq] at h
              rw [h] at hdd
              exact absurd hdd (by decide)
            rw [hblock] at hp; cases hp
          · have qc : q = (natDigits a).length + 2 := by omega
            have hcol : (partyKey a ++ pl)[q]? = some colonC := by
              subst qc
              rw [List.getElem?_append_left (by omega), partyKey_shape,
                show (natDigits a).length + 2 = ((natDigits a).length + 1) + 1 from rfl,
                List.getElem?_cons_succ,
                List.getElem?_append_right (by omega)]
              simp
            have hblock : isPref (partyKey t) ((partyKey a ++ pl).drop q) = false := by
              apply not_isPref_of_window (i := 0) (c := colonC)
              · simpa using hcol
              · omega
              · rw [partyKey_getElem_zero]
                intro h
                simp only [Option.some.injEq] at h
                exact absurd h (by decide)
            rw [hblock] at hp; cases hp
    · obtain ⟨n, rfl⟩ : ∃ n, q = (partyKey a).length + n :=
        ⟨q - (partyKey a).length, by omega⟩
      rw [drop_append_len] at hp
      rw [hnoc n] at hp; cases hp

theorem drop_append_of_le {l1 l2 : List Char} {n : Nat} (h : n ≤ l1.length) :
    (l1 ++ l2).drop n = l1.drop n ++ l2 := by
  rw [List.drop_append_eq_append_drop, show n - l1.length = 0 from by omega,
    List.drop_zero]

theorem noOcc_sepJoin {t : Nat} :
    ∀ (es : List (Nat × List Char)),
      (∀ e ∈ es, e.1 ≠ t) →
      (∀ e ∈ es, (e.2).head? = some lbrace ∧ braceScan 0 e.2 = some e.2.length) →
      (∀ e ∈ es, ∀ q, isPref (partyKey t) (e.2.drop q) = false) →
      ∀ q, isPref (partyKey t) ((sepJoin (es.map entryStr)).drop q) = false := by
  intro es
  induction es with
  | nil =>
    intro _ _ _ q
    simp only [List.map_nil, sepJoin, List.drop_nil]
    exact isPref_partyKey_nil t
  | cons E rest ih =>
    intro hids hwfs hnocs q
    have hidE : E.1 ≠ t := hids E (by simp)
    have hwfE := hwfs E (by simp)
    have hnocE := hnocs E (by simp)
    have hEntry : ∀ r, isPref (partyKey t) ((entryStr E).drop r) = false := by
      have h1 := @noOcc_entry t E.1 E.2 hidE hnocE
      simpa using h1
    cases rest with
    | nil =>
      simp only [List.map_cons, List.map_nil, sepJoin]
      exact hEntry q
    | cons F fs =>
      rw [List.map_cons, List.map_cons, sepJoin_cons_cons, ← List.map_cons]
      set B := sepJoin ((F :: fs).map entryStr) with hB
      have hih : ∀ r, isPref (partyKey t) (B.drop r) = false := by
        intro r
        exact ih (fun e he => hids e (by simp [he])) (fun e he => hwfs e (by simp [he]))
          (fun e he => hnocs e (by simp [he])) r
      have hlastE : (entryStr E).getLast? = some rbrace := by
        have hl := wf_getLast hwfE.1 hwfE.2
        show (partyKey E.1 ++ E.2).getLast? = some rbrace
        exact getLast?_append_some hl
      cases hp : isPref (partyKey t) (((entryStr E) ++ commaC :: B).drop q) with
      | false => rfl
      | true =>
        exfalso
        set A := entryStr E with hA
        rcases Nat.lt_or_ge q A.length with hqa | hqa
        · by_cases hcross : q + (partyKey t).length ≤ A.length
          · have h2 : isPref (partyKey t) (A.drop q) = true := by
              rw [drop_append_of_le (by omega)] at hp
              exact isPref_append_of_le hp (by rw [List.length_drop]; omega)
            rw [hEntry q] at h2; cases h2
          · have hAlast : A[A.length - 1]? = some rbrace := by
              rw [← List.getLast?_eq_getElem?]
              exact hlastE
            have hchar : (A ++ commaC :: B)[q + (A.length - 1 - q)]? = some rbrace := by
              rw [show q + (A.length - 1 - q) = A.length - 1 from by omega,
                List.getElem?_append_left (by omega)]
              exact hAlast
            have hblock := not_isPref_of_window hchar (by omega)
              (getElem_ne_of_not_mem (rbrace_not_mem_partyKey t) _)
            rw [hblock] at hp; cases hp
        · obtain ⟨n, rfl⟩ : ∃ n, q = A.length + n := ⟨q - A.length, by omega⟩
          rw [drop_append_len] at hp
          cases n with
          | zero =>
            rw [List.drop_zero] at hp
            rw [isPref_partyKey_cons_of_ne (by decide)] at hp; cases hp
          | succ m =>
            rw [List.drop_succ_cons] at hp
            rw [hih m] at hp; cases hp

theorem noOcc_before {t : Nat} (pre : List (Nat × List Char))
    (hids : ∀ e ∈ pre, e.1 ≠ t)
    (hwfs : ∀ e ∈ pre, (e.2).head? = some lbrace ∧ braceScan 0 e.2 = some e.2.length)
    (hnocs : ∀ e ∈ pre, ∀ q, isPref (partyKey t) (e.2.drop q) = false)
    (cont : List Char) :
    ∀ q < (encBefore pre).length,
      isPref (partyKey t) ((encBefore pre ++ cont).drop q) = false := by
  cases pre with
  | nil =>
    intro q hq
    have hq0 : q = 0 := by simpa [encBefore] using hq
    subst hq0
    rw [List.drop_zero]
    show isPref (partyKey t) ([lbrace] ++ cont) = false
    rw [List.singleton_append]
    exact isPref_partyKey_cons_of_ne (by decide)
  | cons E es =>
    intro q hq
    simp only [encBefore] at hq ⊢
    set S := sepJoin ((E :: es).map entryStr) with hS
    have hqlen : q < S.length + 2 := by
      simpa using hq
    cases hp : isPref (partyKey t) (((lbrace :: S ++ [commaC]) ++ cont).drop q) with
    | false => rfl
    | true =>
      exfalso
      have hshape : (lbrace :: S ++ [commaC]) ++ cont = lbrace :: (S ++ commaC :: cont) := by
        simp
      rw [hshape] at hp
      cases q with
      | zero =>
        rw [List.drop_zero] at hp
        rw [isPref_partyKey_cons_of_ne (by decide)] at hp; cases hp
      | succ q' =>
        rw [List.drop_succ_cons] at hp
        have hnos : ∀ r, isPref (partyKey t) (S.drop r) = false := fun r =>
          noOcc_sepJoin (E :: es) hids hwfs hnocs r
        by_cases hcross : q' + (partyKey t).length ≤ S.length
        · have h2 : isPref (partyKey t) (S.drop q') = true := by
            rw [drop_append_of_le (by omega)] at hp
            exact isPref_append_of_le hp (by rw [List.length_drop]; omega)
          rw [hnos q'] at h2; cases h2
        · have hchar : (S ++ commaC :: cont)[q' + (S.length - q')]? = some commaC := by
            rw [show q' + (S.length - q') = S.length from by omega,
              List.getElem?_append_right (le_refl _)]
            simp
          have hblock := not_isPref_of_window hchar
            (by have := partyKey_length t; omega)
            (getElem_ne_of_not_mem (commaC_not_mem_partyKey t) _)
          rw [hblock] at hp; cases hp

theorem sepJoin_eq_commaAll :
    ∀ (l : List (List Char)) (m : List Char), sepJoin (m :: l) = m ++ commaAll l := by
  intro l
  induction l with
  | nil => intro m; simp [sepJoin, commaAll]
  | cons x xs ih =>
    intro m
    rw [sepJoin_cons_cons, ih x]
    simp [commaAll]

theorem msgListAux_cons_self {t f : Nat} (h : f = t) (out : List Char)
    (rest : List (List Char)) :
    msgListAux t f (out :: rest) = msgListAux t (f + 1) rest := by
  simp [msgListAux, h]

theorem msgListAux_cons_none {t f : Nat} (h : f ≠ t) {out : List Char}
    (he : extractMsg out t = none) (rest : List (List Char)) :
    msgListAux t f (out :: rest) = msgListAux t (f + 1) rest := by
  simp [msgListAux, h, he]

theorem msgListAux_cons_some {t f : Nat} (h : f ≠ t) {out m : List Char}
    (he : extractMsg out t = some m) (rest : List (List Char)) :
    msgListAux t f (out :: rest) = m :: msgListAux t (f + 1) rest := by
  simp [msgListAux, h, he]

theorem convertAux_cons_self {t f : Nat} (h : f = t) (mc : Nat) (acc out : List Char)
    (rest : List (List Char)) :
    convertAux t f mc acc (out :: rest) = convertAux t (f + 1) mc acc rest := by
  simp [convertAux, h]

theorem convertAux_cons_none {t f : Nat} (h : f ≠ t) {out : List Char}
    (he : extractMsg out t = none) (mc : Nat) (acc : List Char)
    (rest : List (List Char)) :
    convertAux t f mc acc (out :: rest) = convertAux t (f + 1) mc acc rest := by
  simp [convertAux, h, he]

theorem convertAux_cons_some {t f : Nat} (h : f ≠ t) {out m : List Char}
    (he : extractMsg out t = some m) (mc : Nat) (acc : List Char)
    (rest : List (List Char)) :
    convertAux t f mc acc (out :: rest) =
      convertAux t (f + 1) (mc + 1)
        (acc ++ (if 0 < mc then [commaC] else []) ++ m) rest := by
  simp [convertAux, h, he]

theorem convertAux_pos (t : Nat) :
    ∀ (outs : List (List Char)) (f mc : Nat) (acc : List Char), 0 < mc →
      convertAux t f mc acc outs = acc ++ commaAll (msgListAux t f outs) ++ [rbrackC] := by
  intro outs
  induction outs with
  | nil => intro f mc acc _; simp [convertAux, msgListAux, commaAll]
  | cons out rest ih =>
    intro f mc acc hmc
    by_cases hf : f = t
    · rw [convertAux_cons_self hf, msgListAux_cons_self hf]
      exact ih (f + 1) mc acc hmc
    · cases he : extractMsg out t with
      | none =>
        rw [convertAux_cons_none hf he, msgListAux_cons_none hf he]
        exact ih (f + 1) mc acc hmc
      | some m =>
        rw [convertAux_cons_some hf he, msgListAux_cons_some hf he,
          ih (f + 1) (mc + 1) _ (by omega), if_pos hmc]
        simp [commaAll]

theorem convertAux_zero (t : Nat) :
    ∀ (outs : List (List Char)) (f : Nat) (acc : List Char),
      convertAux t f 0 acc outs = acc ++ sepJoin (msgListAux t f outs) ++ [rbrackC] := by
  intro outs
  induction outs with
  | nil => intro f acc; simp [convertAux, msgListAux, sepJoin]
  | cons out rest ih =>
    intro f acc
    by_cases hf : f = t
    · rw [convertAux_cons_self hf, msgListAux_cons_self hf]
      exact ih (f + 1) acc
    · cases he : extractMsg out t with
      | none =>
        rw [convertAux_cons_none hf he, msgListAux_cons_none hf he]
        exact ih (f + 1) acc
      | some m =>
        rw [convertAux_cons_some hf he, msgListAux_cons_some hf he,
          convertAux_pos t rest (f + 1) 1 _ (by omega), sepJoin_eq_commaAll]
        simp

theorem convert_eq_sepJoin (outputs : List (List Char)) (t : Nat) :
    convert_round1_to_messages outputs t =
      lbrackC :: sepJoin (msgList outputs t) ++ [rbrackC] := by
  unfold convert_round1_to_messages msgList
  rw [convertAux_zero]
  simp

theorem withParties_cons (f : Nat) (out : List Char) (rest : List (List Char)) :
    withParties f (out :: rest) = (f, out) :: withParties (f + 1) rest := by
  simp [withParties, List.enumFrom]

theorem msgListAux_eq_filterMap (t : Nat) :
    ∀ (outs : List (List Char)) (f : Nat),
      msgListAux t f outs =
        (withParties f outs).filterMap
          (fun p => if p.1 = t then none else extractMsg p.2 t) := by
  intro outs
  induction outs with
  | nil => intro f; simp [msgListAux, withParties]
  | cons out rest ih =>
    intro f
    rw [withParties_cons, List.filterMap_cons]
    by_cases hf : f = t
    · rw [msgListAux_cons_self hf]
      simp only [if_pos hf]
      exact ih (f + 1)
    · cases he : extractMsg out t with
      | none =>
        rw [msgListAux_cons_none hf he]
        simp only [if_neg hf, he]
        exact ih (f + 1)
      | some m =>
        rw [msgListAux_cons_some hf he]
        simp only [if_neg hf, he]
        rw [ih (f + 1)]

theorem msgList_eq_extractedAscending (outputs : List (List Char)) (t : Nat) :
    msgList outputs t = extractedAscending outputs t := by
  unfold msgList extractedAscending
  exact msgListAux_eq_filterMap t outputs 1

theorem msgListAux_length_countP (t : Nat) :
    ∀ (outs : List (List Char)) (f : Nat),
      (msgListAux t f outs).length =
        (withParties f outs).countP
          (fun p => !(p.1 == t) && (extractMsg p.2 t).isSome) := by
  intro outs
  induction outs with
  | nil => intro f; simp [msgListAux, withParties]
  | cons out rest ih =>
    intro f
    rw [withParties_cons, List.countP_cons]
    by_cases hf : f = t
    · subst hf
      rw [msgListAux_cons_self rfl]
      simp [ih (f + 1)]
    · cases he : extractMsg out t with
      | none =>
        rw [msgListAux_cons_none hf he]
        simp [hf, he, ih (f + 1)]
      | some m =>
        rw [msgListAux_cons_some hf he]
        simp [hf, he, ih (f + 1)]

theorem msgListAux_length_all (t : Nat) :
    ∀ (outs : List (List Char)) (f : Nat),
      (∀ p ∈ withParties f outs, p.1 ≠ t → (extractMsg p.2 t).isSome = true) →
      t < f →
      (msgListAux t f outs).length = outs.length := by
  intro outs
  induction outs with
  | nil => intro f _ _; simp [msgListAux]
  | cons out rest ih =>
    intro f hall hf
    have hne : f ≠ t := by omega
    have hsome := hall (f, out) (by rw [withParties_cons]; simp) hne
    cases he : extractMsg out t with
    | none => rw [he] at hsome; cases hsome
    | some m =>
      rw [msgListAux_cons_some hne he]
      simp only [List.length_cons]
      rw [ih (f + 1) (fun p hp hpt => hall p (by rw [withParties_cons]; simp [hp]) hpt)
        (by omega)]

theorem msgListAux_length_of_range (t : Nat) :
    ∀ (outs : List (List Char)) (f : Nat),
      (∀ p ∈ withParties f outs, p.1 ≠ t → (extractMsg p.2 t).isSome = true) →
      f ≤ t → t < f + outs.length →
      (msgListAux t f outs).length = outs.length - 1 := by
  intro outs
  induction outs with
  | nil => intro f _ h1 h2; simp at h2; omega
  | cons out rest ih =>
    intro f hall h1 h2
    by_cases hf : f = t
    · rw [msgListAux_cons_self hf]
      rw [msgListAux_length_all t rest (f + 1)
        (fun p hp hpt => hall p (by rw [withParties_cons]; simp [hp]) hpt) (by omega)]
      simp
    · have hsome := hall (f, out) (by rw [withParties_cons]; simp) hf
      cases he : extractMsg out t with
      | none => rw [he] at hsome; cases hsome
      | some m =>
        rw [msgListAux_cons_some hf he]
        simp only [List.length_cons] at h2 ⊢
        have hrest : rest.length ≥ 1 := by omega
        rw [ih (f + 1) (fun p hp hpt => hall p (by rw [withParties_cons]; simp [hp]) hpt)
          (by omega) (by omega)]
        omega

theorem msgListAux_mem (t : Nat) :
    ∀ (outs : List (List Char)) (f : Nat) (m : List Char),
      m ∈ msgListAux t f outs →
      ∃ p ∈ withParties f outs, p.1 ≠ t ∧ extractMsg p.2 t = some m := by
  intro outs
  induction outs with
  | nil => intro f m h; cases h
  | cons out rest ih =>
    intro f m h
    by_cases hf : f = t
    · rw [msgListAux_cons_self hf] at h
      obtain ⟨p, hp, hm⟩ := ih (f + 1) m h
      exact ⟨p, by rw [withParties_cons]; simp [hp], hm⟩
    · cases he : extractMsg out t with
      | none =>
        rw [msgListAux_cons_none hf he] at h
        obtain ⟨p, hp, hm⟩ := ih (f + 1) m h
        exact ⟨p, by rw [withParties_cons]; simp [hp], hm⟩
      | some m0 =>
        rw [msgListAux_cons_some hf he] at h
        rcases List.mem_cons.1 h with h | h
        · exact ⟨(f, out), by rw [withParties_cons]; simp, hf, by rw [he, h]⟩
        · obtain ⟨p, hp, hm⟩ := ih (f + 1) m h
          exact ⟨p, by rw [withParties_cons]; simp [hp], hm⟩

theorem extractMsg_some_parts {s : List Char} {t : Nat} {m : List Char}
    (h : extractMsg s t = some m) :
    ∃ i j n, strstrIdx s (partyKey t) = some i ∧
      strchrIdx (s.drop i) lbrace = some j ∧
      braceScan 0 ((s.drop i).drop j) = some n ∧
      m = ((s.drop i).drop j).take n := by
  unfold extractMsg at h
  cases h1 : strstrIdx s (partyKey t) with
  | none => rw [h1] at h; dsimp only at h; cases h
  | some i =>
    rw [h1] at h
    dsimp only at h
    cases h2 : strchrIdx (s.drop i) lbrace with
    | none => rw [h2] at h; dsimp only at h; cases h
    | some j =>
      rw [h2] at h
      dsimp only at h
      cases h3 : braceScan 0 ((s.drop i).drop j) with
      | none => rw [h3] at h; dsimp only at h; cases h
      | some n =>
        rw [h3] at h
        dsimp only at h
        injection h with h
        exact ⟨i, j, n, rfl, h2, h3, h.symm⟩

theorem extractMsg_some_shape {s : List Char} {t : Nat} {m : List Char}
    (h : extractMsg s t = some m) :
    m.head? = some lbrace ∧ m.getLast? = some rbrace ∧ braceDepth m = 0 ∧
      1 ≤ m.length ∧ m.length ≤ s.length := by
  obtain ⟨i, j, n, h1, h2, h3, rfl⟩ := extractMsg_some_parts h
  set sub := (s.drop i).drop j with hsub
  obtain ⟨hn1, hn2, hdep⟩ := braceScan_bounds h3
  have hhead : sub.head? = some lbrace := strchrIdx_head h2
  obtain ⟨s2, hs2⟩ : ∃ s2, sub = lbrace :: s2 := by
    cases hsubc : sub with
    | nil => rw [hsubc] at hhead; cases hhead
    | cons a l =>
      rw [hsubc] at hhead
      simp only [List.head?_cons, Option.some.injEq] at hhead
      exact ⟨l, by rw [hhead]⟩
  rw [hs2, braceScan_zero_lbrace] at h3
  cases h4 : braceScan 1 s2 with
  | none => rw [h4] at h3; cases h3
  | some n2 =>
    rw [h4] at h3
    simp only [Option.some.injEq] at h3
    obtain ⟨hm1, hm2, _⟩ := braceScan_bounds h4
    have hlast2 := braceScan_last (by omega) h4
    have htake : sub.take n = lbrace :: s2.take n2 := by
      rw [hs2, ← h3, List.take_succ_cons]
    have hlensub : sub.length ≤ s.length := by
      rw [hsub]
      simp only [List.length_drop]
      omega
    refine ⟨?_, ?_, hdep, ?_, ?_⟩
    · rw [htake]; rfl
    · rw [htake]
      cases ht2 : s2.take n2 with
      | nil => rw [ht2] at hlast2; simp at hlast2
      | cons x xs =>
        rw [ht2] at hlast2
        rw [List.getLast?_cons_cons]
        exact hlast2
    · rw [List.length_take]; omega
    · rw [List.length_take]; omega

theorem commaAll_length :
    ∀ l : List (List Char), (commaAll l).length = (l.map (fun m => m.length + 1)).sum := by
  intro l
  induction l with
  | nil => simp [commaAll]
  | cons m rest ih =>
    simp only [commaAll, List.length_append, List.length_cons, List.map_cons,
      List.sum_cons, ih]

theorem sepJoin_length_le (l : List (List Char)) :
    (sepJoin l).length ≤ (l.map (fun m => m.length + 1)).sum := by
  cases l with
  | nil => simp [sepJoin]
  | cons m rest =>
    rw [sepJoin_eq_commaAll, List.length_append, commaAll_length]
    simp only [List.map_cons, List.sum_cons]
    omega

theorem msgListAux_cost_le (t : Nat) :
    ∀ (outs : List (List Char)) (f : Nat),
      ((msgListAux t f outs).map (fun m => m.length + 1)).sum ≤
        2 * (outs.map List.length).sum := by
  intro outs
  induction outs with
  | nil => intro f; simp [msgListAux]
  | cons out rest ih =>
    intro f
    by_cases hf : f = t
    · rw [msgListAux_cons_self hf]
      have := ih (f + 1)
      simp only [List.map_cons, List.sum_cons]
      omega
    · cases he : extractMsg out t with
      | none =>
        rw [msgListAux_cons_none hf he]
        have := ih (f + 1)
        simp only [List.map_cons, List.sum_cons]
        omega
      | some m =>
        rw [msgListAux_cons_some hf he]
        have hshape := extractMsg_some_shape he
        have h1 : 1 ≤ m.length := hshape.2.2.2.1
        have h2 : m.length ≤ out.length := hshape.2.2.2.2
        have := ih (f + 1)
        simp only [List.map_cons, List.sum_cons] at this ⊢
        omega

/-- C1: as stated, the codec round-trip fails on the code: a payload whose
bytes contain a stray closing-brace delimiter is truncated by the brace
scan, so extraction does not return the stored payload.  Concretely, for
the one-entry envelope holding payload `\x7b\x7d\x7d` under PartyId 1,
extraction returns the shorter span `\x7b\x7d`. -/
theorem C1_roundtrip_cex :
    (1, [lbrace, rbrace, rbrace]) ∈ [(1, [lbrace, rbrace, rbrace])] ∧
      extractMsg (encode [(1, [lbrace, rbrace, rbrace])]) 1 ≠
        some [lbrace, rbrace, rbrace] := by
  decide

/-- C1 (amended): the round-trip `extract (encode env) t = env[t]` holds
provided the stored payload is a span the brace scan consumes exactly
(it starts with a brace and its depth first returns to zero at its end)
and the key text `"t":` does not occur in the encoded bytes before party
t's top-level entry. -/
theorem C1_roundtrip (pre post : List (Nat × List Char)) (t : Nat)
    (payload : List Char)
    (hhead : payload.head? = some lbrace)
    (hscan : braceScan 0 payload = some payload.length)
    (hfirst : ∀ q < (encBefore pre).length,
      isPref (partyKey t) ((encode (pre ++ (t, payload) :: post)).drop q) = false) :
    extractMsg (encode (pre ++ (t, payload) :: post)) t = some payload :=
  extract_encode_core pre post t payload hhead hscan hfirst

/-- Witness for C1 at a concrete two-entry envelope. -/
theorem C1_roundtrip_witness :
    extractMsg (encode ([] ++ (2, tvB) :: [(3, tvA)])) 2 = some tvB :=
  C1_roundtrip [] [(3, tvA)] 2 tvB (by decide) (by decide) (by decide)

/-- C2: as stated, depth-aware key location fails on the code: the key is
located with a plain `strstr`, so when the byte sequence `"3":` occurs
inside the literal text of sibling entry 1's payload, extraction for
target 3 returns a span from inside that sibling instead of the payload
stored under the top-level key 3. -/
theorem C2_key_location_cex :
    (strstrIdx tvFake (partyKey 3)).isSome = true ∧
      (3, tvReal) ∈ [(1, tvFake), (3, tvReal)] ∧
      extractMsg (encode [(1, tvFake), (3, tvReal)]) 3 ≠ some tvReal := by
  decide

/-- C2 (amended): the key search matches the first occurrence of the key
bytes anywhere in the buffer; extraction returns the payload stored under
the top-level key `t` provided no earlier sibling entry's payload contains
the key text `"t":` (and the payloads are well-formed brace spans with
distinct ids before `t`). -/
theorem C2_key_location (pre post : List (Nat × List Char)) (t : Nat)
    (payload : List Char)
    (hids : ∀ e ∈ pre, e.1 ≠ t)
    (hwfs : ∀ e ∈ pre, (e.2).head? = some lbrace ∧ braceScan 0 e.2 = some e.2.length)
    (hnocs : ∀ e ∈ pre, strstrIdx e.2 (partyKey t) = none)
    (hhead : payload.head? = some lbrace)
    (hscan : braceScan 0 payload = some payload.length) :
    extractMsg (encode (pre ++ (t, payload) :: post)) t = some payload := by
  apply extract_encode_core pre post t payload hhead hscan
  intro q hq
  have hnocs2 : ∀ e ∈ pre, ∀ r, isPref (partyKey t) (e.2.drop r) = false :=
    fun e he r => (strstrIdx_none_iff.1 (hnocs e he)) r
  have hdecomp : encode (pre ++ (t, payload) :: post) =
      encBefore pre ++ (entryStr (t, payload) ++ encAfter post) := by
    rw [encode_decomp]; simp
  rw [hdecomp]
  exact noOcc_before pre hids hwfs hnocs2 _ q hq

/-- Witness for C2: a sibling entry precedes the target entry. -/
theorem C2_key_location_witness :
    extractMsg (encode ([(1, tvA)] ++ (2, tvB) :: [])) 2 = some tvB :=
  C2_key_location [(1, tvA)] [] 2 tvB (by decide) (by decide) (by decide)
    (by decide) (by decide)

/-- C3: as stated, the claim fails on the code: when party 1's output
contains no entry addressed to party 2, the routine does not fail with
MissingMessage — it silently skips that sender and produces a batch of 1
payload where N - 1 = 2 are expected. -/
theorem C3_missing_message_cex :
    extractMsg (encode [(3, tvA)]) 2 = none ∧
      (msgList tvOutsMissing 2).length = 1 ∧
      convert_round1_to_messages tvOutsMissing 2 =
        lbrackC :: tvB ++ [rbrackC] := by
  decide

/-- C3 (amended): a sender whose output yields no extractable entry for the
target is silently skipped: the batch size is exactly the number of
senders (in ascending id order, excluding the target itself) whose output
yields an entry, which can be smaller than N - 1; no failure is signalled. -/
theorem C3_silent_skip (outputs : List (List Char)) (t : Nat) :
    (msgList outputs t).length =
      (withParties 1 outputs).countP
        (fun p => !(p.1 == t) && (extractMsg p.2 t).isSome) :=
  msgListAux_length_countP t outputs 1

/-- C4: if the brace depth of the located value span never returns to zero
before the end of the buffer, extraction returns none and contributes no
payload (not even a partial span) to the aggregated batch. -/
theorem C4_unbalanced (s : List Char) (t : Nat) (i j : Nat)
    (hi : strstrIdx s (partyKey t) = some i)
    (hj : strchrIdx (s.drop i) lbrace = some j)
    (hdepth : ∀ n, n ≤ ((s.drop i).drop j).length → 1 ≤ n →
      braceDepth (((s.drop i).drop j).take n) ≠ 0) :
    extractMsg s t = none ∧
      ∀ (f : Nat) (rest : List (List Char)),
        msgListAux t f (s :: rest) = msgListAux t (f + 1) rest := by
  have hnone : braceScan 0 ((s.drop i).drop j) = none :=
    braceScan_none_of_depth (fun n h1 h2 => hdepth n h2 h1)
  have hnone2 : extractMsg s t = none := by
    unfold extractMsg
    rw [hi]; dsimp only; rw [hj]; dsimp only; rw [hnone]
  refine ⟨hnone2, ?_⟩
  intro f rest
  by_cases hf : f = t
  · exact msgListAux_cons_self hf s rest
  · exact msgListAux_cons_none hf hnone2 rest

/-- Witness for C4 on the unbalanced buffer `\x7b"1":\x7b\x7b\x7d`. -/
theorem C4_unbalanced_witness :
    extractMsg tvUnbal 1 = none ∧
      msgListAux 1 2 (tvUnbal :: [encode [(1, tvA)]]) =
        msgListAux 1 3 [encode [(1, tvA)]] :=
  ⟨(C4_unbalanced tvUnbal 1 1 4 (by decide) (by decide) (by decide)).1,
   (C4_unbalanced tvUnbal 1 1 4 (by decide) (by decide) (by decide)).2 2
     [encode [(1, tvA)]]⟩

/-- C5: when every other party's output yields an extractable entry for
party t (1 ≤ t ≤ N), the batch has exactly N - 1 payloads, each extracted
from the output of a sender with id different from t — nothing is ever
taken from party t's own output slot. -/
theorem C5_completeness (outputs : List (List Char)) (t : Nat)
    (hall : ∀ p ∈ withParties 1 outputs, p.1 ≠ t → (extractMsg p.2 t).isSome = true)
    (h1 : 1 ≤ t) (h2 : t ≤ outputs.length) :
    (msgList outputs t).length = outputs.length - 1 ∧
      ∀ m ∈ msgList outputs t,
        ∃ p ∈ withParties 1 outputs, p.1 ≠ t ∧ extractMsg p.2 t = some m := by
  constructor
  · exact msgListAux_length_of_range t outputs 1 hall h1 (by omega)
  · intro m hm
    exact msgListAux_mem t outputs 1 m hm

/-- Witness for C5 on a concrete 3-party round. -/
theorem C5_completeness_witness :
    ((msgList tvOuts 2).length = tvOuts.length - 1) ∧
      (∃ p ∈ withParties 1 tvOuts, p.1 ≠ 2 ∧ extractMsg p.2 2 = some tvA) :=
  ⟨(C5_completeness tvOuts 2 (by decide) (by decide) (by decide)).1,
   (C5_completeness tvOuts 2 (by decide) (by decide) (by decide)).2 tvA
     (by decide)⟩

/-- C6: the aggregated batch is exactly the byte string consisting of `[`,
the extracted spans joined by `,` in ascending sender PartyId order (the
iteration and insertion order of the loop), and `]`.  Determinism over
fixed inputs is immediate: the aggregation is a pure function of its
arguments. -/
theorem C6_shape (outputs : List (List Char)) (t : Nat) :
    convert_round1_to_messages outputs t =
      lbrackC :: sepJoin (extractedAscending outputs t) ++ [rbrackC] := by
  rw [convert_eq_sepJoin, msgList_eq_extractedAscending]

/-- C7: as stated, the claim fails on the code: the keygen/refresh/ed25519
bindings do not raise a runtime exception on a nonzero engine code — the
`keygenInit` binding (cited by the claim itself) returns the zero handle
instead of throwing. -/
theorem C7_error_propagation_cex :
    ("keygenInit", keygenInitJ) ∈ jniBindings ∧
      keygenInitJ (-1) ≠ JniOutcome.thrownRuntimeException (-1) := by
  constructor
  · unfold jniBindings
    exact List.mem_cons_self _ _
  · decide

/-- C7 (amended): on a nonzero engine result code, exactly the ECDSA keygen
and ECDSA signing bindings throw a RuntimeException carrying the code; all
other bindings return null (or a zero handle) without throwing. -/
theorem C7_error_propagation (b : String × (Int → JniOutcome))
    (hb : b ∈ jniBindings) (r : Int) (hr : r ≠ 0) :
    b.2 r = (if b.1 ∈ throwingNames then JniOutcome.thrownRuntimeException r
             else JniOutcome.nullReturn) := by
  fin_cases hb <;>
    simp [keygenInitJ, keygenRound1J, keygenRound2J, keygenRound3J, refreshInitJ,
      refreshRound1J, refreshRound2J, refreshRound3J, ed25519SignInitJ,
      ed25519SignRound1J, ed25519SignRound2J, ed25519SignRound3J,
      ecdsaKeygenGenerateP2ParamsJ, ecdsaKeygenP1J, ecdsaKeygenP2J,
      ecdsaSignInitP1ComplexJ, ecdsaSignInitP2ComplexJ, ecdsaSignStep1J,
      ecdsaSignP2Step1J, ecdsaSignP1Step2J, ecdsaSignP2Step2J, ecdsaSignP1Step3J,
      throwingNames, hr]

/-- Witness for C7 at the non-throwing `keygenInit` binding. -/
theorem C7_error_propagation_witness :
    keygenInitJ (-2) = (if "keygenInit" ∈ throwingNames
      then JniOutcome.thrownRuntimeException (-2) else JniOutcome.nullReturn) :=
  C7_error_propagation ("keygenInit", keygenInitJ)
    (by unfold jniBindings; exact List.mem_cons_self _ _) (-2) (by decide)

/-- C8: for any engine, the two-party ECDSA signing run is exactly 5 steps,
driven P1, P2, P1, P2, P1; the first step takes no input, and every later
step consumes exactly the payloads produced by the peer's immediately
preceding step, passed directly. -/
theorem C8_step_sequence {α : Type} (f1 : Unit → α) (f2 : α → α × α)
    (f3 : α → α → α × α) (f4 : α → α → α × α) (f5 : α → α → α × α) :
    ((ecdsaSignTrace f1 f2 f3 f4 f5).map StepRec.role =
        [Role.P1, Role.P2, Role.P1, Role.P2, Role.P1]) ∧
      (ecdsaSignTrace f1 f2 f3 f4 f5).length = 5 ∧
      ((ecdsaSignTrace f1 f2 f3 f4 f5).head?.map StepRec.inputs = some []) ∧
      chained (ecdsaSignTrace f1 f2 f3 f4 f5) := by
  refine ⟨rfl, rfl, rfl, ?_⟩
  unfold ecdsaSignTrace chained
  refine ⟨List.Perm.refl _, ?_⟩
  unfold chained
  refine ⟨List.Perm.refl _, ?_⟩
  unfold chained
  refine ⟨List.Perm.swap _ _ _, ?_⟩
  unfold chained
  exact ⟨List.Perm.refl _, trivial⟩

/-- C9: every aggregated result starts with `[` and ends with `]`; when no
entry is extracted the result is exactly `[]`; and every span placed
between the brackets starts with a brace, ends with a closing brace, and
has total brace depth zero. -/
theorem C9_aggregation_invariants (outputs : List (List Char)) (t : Nat) :
    (convert_round1_to_messages outputs t).head? = some lbrackC ∧
      (convert_round1_to_messages outputs t).getLast? = some rbrackC ∧
      (msgList outputs t = [] →
        convert_round1_to_messages outputs t = [lbrackC, rbrackC]) ∧
      ∀ m ∈ msgList outputs t,
        m.head? = some lbrace ∧ m.getLast? = some rbrace ∧ braceDepth m = 0 := by
  refine ⟨?_, ?_, ?_, ?_⟩
  · rw [convert_eq_sepJoin]; rfl
  · rw [convert_eq_sepJoin]
    show (([lbrackC] ++ (sepJoin (msgList outputs t) ++ [rbrackC])).getLast? =
      some rbrackC)
    exact getLast?_append_some (getLast?_append_some rfl)
  · intro h
    rw [convert_eq_sepJoin, h]
    rfl
  · intro m hm
    obtain ⟨p, _, _, he⟩ := msgListAux_mem t outputs 1 m hm
    have hs := extractMsg_some_shape he
    exact ⟨hs.1, hs.2.1, hs.2.2.1⟩

/-- Witness for C9: the bracket facts and a concrete span's shape on a
3-party round, plus the exact `[]` output on an empty round. -/
theorem C9_aggregation_invariants_witness :
    (convert_round1_to_messages tvOuts 2).head? = some lbrackC ∧
      (convert_round1_to_messages tvOuts 2).getLast? = some rbrackC ∧
      convert_round1_to_messages [] 1 = [lbrackC, rbrackC] ∧
      (tvA.head? = some lbrace ∧ tvA.getLast? = some rbrace ∧ braceDepth tvA = 0) :=
  ⟨(C9_aggregation_invariants tvOuts 2).1,
   (C9_aggregation_invariants tvOuts 2).2.1,
   (C9_aggregation_invariants [] 1).2.2.1 (by decide),
   (C9_aggregation_invariants tvOuts 2).2.2.2 tvA (by decide)⟩

/-- C10: the bytes the routine writes — the final string plus its NUL
terminator — always fit in the `1000 + 2 * Σ lens` buffer it allocates. -/
theorem C10_buffer_bound (outputs : List (List Char)) (t : Nat) :
    (convert_round1_to_messages outputs t).length + 1 ≤
      1000 + 2 * ((outputs.map List.length).sum) := by
  rw [convert_eq_sepJoin]
  have h1 := sepJoin_length_le (msgList outputs t)
  have h2 : ((msgList outputs t).map (fun m => m.length + 1)).sum ≤
      2 * ((outputs.map List.length).sum) := msgListAux_cost_le t outputs 1
  simp only [List.length_cons, List.length_append, List.length_singleton,
    List.length_nil]
  omega

end MpcWeb
